import Mathlib

set_option maxRecDepth 8000

/-!
Verification of the minutes-played reconstruction and player statistics of
src/lamine_yamal_euro_2024_analysis_dashboard.py.

The central function, get_minutes_played, walks the StatsBomb event log of
every match: it sorts each match by (period, minute, second) (a stable
lexicographic sort, as pandas sort_values with several columns performs),
reads the Starting XI lineups, processes Substitution events, and closes all
players still on the field at the timestamp of the last sorted event.
Dictionaries are modelled as association lists (insertion ordered, unique
keys), floats as rationals, NaN and missing columns as Option.none.
-/

/-- Events of the StatsBomb event log, as consumed by get_minutes_played and
get_player_stats.  Optional columns are Option valued (none models NaN,
missing or malformed data).  The tactics field is some lineup exactly when
event.tactics is a dict carrying a list lineup; each lineup entry is some
name when the entry is a well-formed player dict with a name, none
otherwise.  The substitution field holds event.substitution.replacement.name
when present. -/
structure Event where
  match_id : Nat := 0
  period : Nat := 1
  minute : Nat := 0
  second : Nat := 0
  type : String := ""
  player : Option String := none
  tactics : Option (List (Option String)) := none
  substitution : Option String := none
  pass_outcome : Option String := none
  pass_shot_assist : Option String := none
  pass_goal_assist : Option String := none
  shot_outcome : Option String := none
  shot_statsbomb_xg : Option ℚ := none
  dribble_outcome : Option String := none
  team : String := ""
deriving DecidableEq

/-- String constant for the Starting XI event type. -/
def sStartingXI : String := "Starting XI"

/-- String constant for the Substitution event type. -/
def sSubstitution : String := "Substitution"

/-- String constant for the Pass event type. -/
def sPass : String := "Pass"

/-- String constant for the Shot event type. -/
def sShot : String := "Shot"

/-- String constant for the Dribble event type. -/
def sDribble : String := "Dribble"

/-- String constant for the Goal shot outcome. -/
def sGoal : String := "Goal"

/-- String constant for the Complete dribble outcome. -/
def sComplete : String := "Complete"

/-- The player-to-minutes dictionary (python dict of float totals). -/
abbrev Dict := List (String × ℚ)

/-- Lookup in an association list (python dict access / dict.get). -/
def alookup {β : Type} (p : String) : List (String × β) → Option β
  | [] => none
  | (q, v) :: t => if p = q then some v else alookup p t

/-- Python dict assignment d[p] = v: replace in place, else append. -/
def aset {β : Type} (p : String) (v : β) : List (String × β) → List (String × β)
  | [] => [(p, v)]
  | (q, w) :: t => if p = q then (q, v) :: t else (q, w) :: aset p v t

/-- Python del d[p] (guarded by membership in the source, so absent keys
are simply left untouched). -/
def aerase {β : Type} (p : String) : List (String × β) → List (String × β)
  | [] => []
  | (q, w) :: t => if p = q then t else (q, w) :: aerase p t

/-- Python dict.setdefault(p, 0): insert (p, 0) at the end when absent. -/
def dsetdefault (p : String) (d : Dict) : Dict :=
  match alookup p d with
  | some _ => d
  | none => d ++ [(p, 0)]

/-- The update player_total_minutes[p] = player_total_minutes.get(p, 0) + c. -/
def addTo (p : String) (c : ℚ) (d : Dict) : Dict :=
  aset p ((alookup p d).getD 0 + c) d

/-- Python set.add on the on-field set (modelled as a duplicate-free list in
insertion order). -/
def fadd (p : String) (s : List String) : List String :=
  if p ∈ s then s else s ++ [p]

/-- The comparison pandas sort_values(by = [period, minute, second]) sorts
by: lexicographic order on the (period, minute, second) triple. -/
def leP (a b : Event) : Prop :=
  a.period < b.period ∨
    (a.period = b.period ∧
      (a.minute < b.minute ∨ (a.minute = b.minute ∧ a.second ≤ b.second)))

instance decLeP : DecidableRel leP := fun a b =>
  decidable_of_iff
    (a.period < b.period ∨
      (a.period = b.period ∧
        (a.minute < b.minute ∨ (a.minute = b.minute ∧ a.second ≤ b.second))))
    Iff.rfl

instance : IsTotal Event leP := ⟨fun a b => by unfold leP; omega⟩

instance : IsTrans Event leP := ⟨fun a b c hab hbc => by unfold leP at *; omega⟩

/-- The stable lexicographic sort pandas sort_values performs on the three
columns period, minute, second (a multi-column sort_values is a stable
lexsort; insertion sort by the same total preorder is stable as well, hence
produces the identical list). -/
def sortE (l : List Event) : List Event := l.insertionSort leP

/-- The derived scalar: (period - 1) * 45 * 60 + minute * 60 + second,
exactly as computed (twice) in get_minutes_played. -/
def elapsed (e : Event) : ℤ :=
  ((e.period : ℤ) - 1) * 45 * 60 + (e.minute : ℤ) * 60 + (e.second : ℤ)

/-- max_match_total_seconds: the derived timestamp of the last event of the
sorted match slice, 0 for an empty slice. -/
def matchEnd (evs : List Event) : ℤ :=
  match (sortE evs).getLast? with
  | some e => elapsed e
  | none => 0

/-- The per-match working state: players_on_field,
player_match_start_time and the global player_total_minutes dict. -/
structure MState where
  onField : List String
  startTime : List (String × ℤ)
  totals : Dict
deriving DecidableEq

/-- Record one starter: players_on_field.add(name),
player_match_start_time[name] = 0,
player_total_minutes.setdefault(name, 0). -/
def addStarter (p : String) (st : MState) : MState :=
  { onField := fadd p st.onField
    startTime := aset p 0 st.startTime
    totals := dsetdefault p st.totals }

/-- One lineup entry of a Starting XI row: a well-formed entry records the
named starter, a malformed one is skipped. -/
def startEntry (s : MState) (entry : Option String) : MState :=
  match entry with
  | some name => addStarter name s
  | none => s

/-- Processing of one Starting XI row: when tactics is a well-formed dict
with a list lineup, every well-formed lineup entry is recorded as a
starter; otherwise a non-null player field makes that single player the
starter. -/
def startAct (st : MState) (e : Event) : MState :=
  match e.tactics with
  | some lineup => lineup.foldl startEntry st
  | none =>
      match e.player with
      | some p => addStarter p st
      | none => st

/-- The first loop of get_minutes_played: iterate the rows of the sorted
slice whose type is Starting XI. -/
def startingPass (evs : List Event) (st : MState) : MState :=
  (evs.filter (fun e => e.type == sStartingXI)).foldl startAct st

/-- The outgoing half of a Substitution row: when the named outgoing player
is currently on the field, credit (current - start) / 60 minutes, drop the
player from the on-field set and delete the start time. -/
def subOut (st : MState) (e : Event) : MState :=
  match e.player with
  | some pOff =>
      if pOff ∈ st.onField then
        { onField := st.onField.filter (fun q => q != pOff)
          startTime := aerase pOff st.startTime
          totals :=
            addTo pOff
              (((elapsed e - (alookup pOff st.startTime).getD 0 : ℤ) : ℚ) / 60)
              st.totals }
      else st
  | none => st

/-- The incoming half of a Substitution row: a truthy replacement name not
already on the field enters at the current timestamp.  The python guard
if player_on and ... treats the empty string as falsy, hence the
explicit nonemptiness test. -/
def subIn (st : MState) (e : Event) : MState :=
  match e.substitution with
  | some pOn =>
      if pOn ≠ "" ∧ pOn ∉ st.onField then
        { onField := fadd pOn st.onField
          startTime := aset pOn (elapsed e) st.startTime
          totals := dsetdefault pOn st.totals }
      else st
  | none => st

/-- The second loop of get_minutes_played: only Substitution rows act, the
outgoing side first, then the incoming side on the mutated state. -/
def mainStep (st : MState) (e : Event) : MState :=
  if e.type = sSubstitution then subIn (subOut st e) e else st

/-- One step of the closing loop: credit one remaining player with
(max_match_total_seconds - start) / 60. -/
def closeStep (stt : List (String × ℤ)) (endSec : ℤ) (acc : Dict)
    (p : String) : Dict :=
  addTo p (((endSec - (alookup p stt).getD 0 : ℤ) : ℚ) / 60) acc

/-- The closing loop over a given enumeration of players_on_field. -/
def closeOutOn (ps : List String) (stt : List (String × ℤ)) (endSec : ℤ)
    (d : Dict) : Dict :=
  ps.foldl (closeStep stt endSec) d

/-- The closing loop of get_minutes_played over the on-field set. -/
def closeOut (endSec : ℤ) (st : MState) : Dict :=
  closeOutOn st.onField st.startTime endSec st.totals

/-- One full match of get_minutes_played: sort the slice, read the end
timestamp, run the Starting XI pass, the substitution pass and the closing
loop, threading the global totals dict through. -/
def processMatch (evs : List Event) (totals : Dict) : Dict :=
  let sorted := sortE evs
  let endSec := matchEnd evs
  let st1 := startingPass sorted { onField := [], startTime := [], totals := totals }
  let st2 := sorted.foldl mainStep st1
  closeOut endSec st2

/-- One step of first-appearance deduplication. -/
def uniqStep (acc : List Nat) (m : Nat) : List Nat :=
  if m ∈ acc then acc else acc ++ [m]

/-- events_df[match_id].unique(): match ids in first-appearance order. -/
def uniqueIds (l : List Nat) : List Nat := l.foldl uniqStep []

/-- The per-match-id step of the outer loop of get_minutes_played. -/
def matchStep (events : List Event) (totals : Dict) (mid : Nat) : Dict :=
  processMatch (events.filter (fun e => e.match_id == mid)) totals

/-- get_minutes_played: fold processMatch over the unique match ids of the
log, starting from the empty dict.  (The resulting DataFrame is the item
list of the dict, modelled by the dict itself.) -/
def getMinutesPlayed (events : List Event) : Dict :=
  (uniqueIds (events.map (fun e => e.match_id))).foldl (matchStep events) []

/-- A variant of processMatch whose closing loop iterates the on-field set
in the order chosen by ord; with ord = MState.onField it is processMatch
itself.  Python iterates a hash set here, whose enumeration order is not
specified, so determinism of the output mapping must not depend on it. -/
def processMatchOrd (ord : MState → List String) (evs : List Event)
    (totals : Dict) : Dict :=
  let sorted := sortE evs
  let endSec := matchEnd evs
  let st1 := startingPass sorted { onField := [], startTime := [], totals := totals }
  let st2 := sorted.foldl mainStep st1
  closeOutOn (ord st2) st2.startTime endSec st2.totals

/-- The per-match-id step of gmpOrd. -/
def matchStepOrd (ord : MState → List String) (events : List Event)
    (totals : Dict) (mid : Nat) : Dict :=
  processMatchOrd ord (events.filter (fun e => e.match_id == mid)) totals

/-- get_minutes_played with the closing loop enumerated by ord. -/
def gmpOrd (ord : MState → List String) (events : List Event) : Dict :=
  (uniqueIds (events.map (fun e => e.match_id))).foldl (matchStepOrd ord events) []

/-- Round half to even on the scaled value, as python round does
(modelled over exact rationals). -/
def rhe (x : ℚ) : ℤ :=
  let f := ⌊x⌋
  let r := x - (f : ℚ)
  if r < 1 / 2 then f
  else if 1 / 2 < r then f + 1
  else if f % 2 = 0 then f else f + 1

/-- python round(x, n) over rationals: banker rounding at n digits. -/
def pyRound (x : ℚ) (n : ℕ) : ℚ := ((rhe (x * 10 ^ n) : ℤ) : ℚ) / 10 ^ n

/-- The record returned by get_player_stats (field names follow the python
dict keys). -/
structure PlayerStats where
  name : String
  team : String
  minutes_played : ℚ
  goals_p90 : ℚ
  assists_p90 : ℚ
  total_shots_p90 : ℚ
  xg_sum_p90 : ℚ
  successful_passes_p90 : ℚ
  pass_success_rate : ℚ
  dribbles_completed_p90 : ℚ
  dribble_success_rate : ℚ
deriving DecidableEq

/-- get_player_stats: per-90 attacking statistics of one player.  When the
minutes series holds 0 (or lacks the player, the .get default), the per-90
factor is 0 and the whole per-90 branch, divisions included, is skipped:
every rate and per-90 figure is the literal 0. -/
def getPlayerStats (df : List Event) (player_name : String) (minutes : Dict)
    (team_name : String) : PlayerStats :=
  let df_player := df.filter (fun e => e.player == some player_name)
  let minutes_played := (alookup player_name minutes).getD 0
  let per_90_factor : ℚ := if minutes_played = 0 then 0 else minutes_played / 90
  let team := match df_player with
    | [] => team_name
    | e :: _ => e.team
  if per_90_factor = 0 then
    { name := player_name
      team := team
      minutes_played := pyRound minutes_played 1
      goals_p90 := pyRound 0 2
      assists_p90 := pyRound 0 2
      total_shots_p90 := pyRound 0 2
      xg_sum_p90 := pyRound 0 2
      successful_passes_p90 := pyRound 0 2
      pass_success_rate := pyRound 0 1
      dribbles_completed_p90 := pyRound 0 2
      dribble_success_rate := pyRound 0 1 }
  else
    let df_passes := df_player.filter (fun e => e.type == sPass)
    let total_passes : ℚ := df_passes.length
    let successful_passes : ℚ :=
      (df_passes.filter (fun e => e.pass_outcome.isNone)).length
    let pass_rate : ℚ :=
      if 0 < total_passes then successful_passes / total_passes * 100 else 0
    let assists : ℚ :=
      (df_passes.filter
        (fun e => e.pass_shot_assist.isSome || e.pass_goal_assist.isSome)).length
    let df_shots := df_player.filter (fun e => e.type == sShot)
    let total_shots : ℚ := df_shots.length
    let xg_sum : ℚ := (df_shots.map (fun e => e.shot_statsbomb_xg.getD 0)).sum
    let goals : ℚ :=
      (df_shots.filter (fun e => e.shot_outcome == some sGoal)).length
    let df_dribbles := df_player.filter (fun e => e.type == sDribble)
    let total_dribbles : ℚ := df_dribbles.length
    let successful_dribbles : ℚ :=
      (df_dribbles.filter (fun e => e.dribble_outcome == some sComplete)).length
    let dribble_rate : ℚ :=
      if 0 < total_dribbles then successful_dribbles / total_dribbles * 100 else 0
    { name := player_name
      team := team
      minutes_played := pyRound minutes_played 1
      goals_p90 := pyRound (goals / per_90_factor) 2
      assists_p90 := pyRound (assists / per_90_factor) 2
      total_shots_p90 := pyRound (total_shots / per_90_factor) 2
      xg_sum_p90 := pyRound (xg_sum / per_90_factor) 2
      successful_passes_p90 := pyRound (successful_passes / per_90_factor) 2
      pass_success_rate := pyRound pass_rate 1
      dribbles_completed_p90 := pyRound (successful_dribbles / per_90_factor) 2
      dribble_success_rate := pyRound dribble_rate 1 }

/-- All totals of a minutes dict are non-negative. -/
def nonnegDict (d : Dict) : Prop := ∀ pr ∈ d, 0 ≤ pr.2

/-- Two dicts agree as player-to-minutes mappings. -/
def dEquiv (d₁ d₂ : Dict) : Prop := ∀ k, alookup k d₁ = alookup k d₂

/-- The (period, minute, second) triple of an event. -/
def tkey (e : Event) : Nat × Nat × Nat := (e.period, e.minute, e.second)

/-- The comparison the specification describes: ascending derived
elapsed_seconds. -/
def leElapsed (a b : Event) : Prop := elapsed a ≤ elapsed b

instance decLeElapsed : DecidableRel leElapsed := fun a b =>
  decidable_of_iff (elapsed a ≤ elapsed b) Iff.rfl

/-- The stable sort by the derived scalar which claim C3 describes. -/
def specSort (l : List Event) : List Event := l.insertionSort leElapsed

/-- Strict lexicographic order on the sort keys (used to identify the two
stable sorts of key-distinct lists). -/
def ltP (a b : Event) : Prop := leP a b ∧ tkey a ≠ tkey b

/-- Boolean test: the event names player p as a starter, following exactly
the two branches of the Starting XI loop (well-formed lineup listing p, or
no well-formed lineup and player column p). -/
def starterB (p : String) (e : Event) : Bool :=
  (e.type == sStartingXI) &&
    (match e.tactics with
     | some lineup => decide (some p ∈ lineup)
     | none => decide (e.player = some p))

/-- The event names player p as a starter. -/
def isStarterIn (p : String) (e : Event) : Prop := starterB p e = true

instance decIsStarterIn (p : String) (e : Event) : Decidable (isStarterIn p e) :=
  decidable_of_iff (starterB p e = true) Iff.rfl

/-- Effect of one dict-local update on the value stored at one key: none
leaves the value alone, some c replaces v by v.getD 0 + c. -/
def applyC : Option ℚ → Option ℚ → Option ℚ
  | none, v => v
  | some c, v => some (v.getD 0 + c)

/-- Sequential composition of two per-key effects (first argument acts
first). -/
def combC : Option ℚ → Option ℚ → Option ℚ
  | a, none => a
  | none, some c => some c
  | some c₁, some c₂ => some (c₁ + c₂)

/-- A dict transformer is local when, at every key, it only reads and
rewrites the value stored at that same key, by a per-key additive effect
that does not depend on the dict. -/
def IsLocalF (f : Dict → Dict) : Prop :=
  ∃ δ : String → Option ℚ, ∀ d k, alookup k (f d) = applyC (δ k) (alookup k d)

/-- The field-only part of the per-match state (on-field set and start
times), which evolves independently of the totals dict. -/
abbrev FS := (List String) × (List (String × ℤ))

/-- Field-only mirror of addStarter. -/
def gAddStarter (p : String) (fs : FS) : FS := (fadd p fs.1, aset p 0 fs.2)

/-- Field-only mirror of startEntry. -/
def gStartEntry (s : FS) (entry : Option String) : FS :=
  match entry with
  | some name => gAddStarter name s
  | none => s

/-- Field-only mirror of startAct. -/
def gStartAct (fs : FS) (e : Event) : FS :=
  match e.tactics with
  | some lineup => lineup.foldl gStartEntry fs
  | none =>
      match e.player with
      | some p => gAddStarter p fs
      | none => fs

/-- Field-only mirror of subOut. -/
def gSubOut (fs : FS) (e : Event) : FS :=
  match e.player with
  | some pOff =>
      if pOff ∈ fs.1 then (fs.1.filter (fun q => q != pOff), aerase pOff fs.2)
      else fs
  | none => fs

/-- Field-only mirror of subIn. -/
def gSubIn (fs : FS) (e : Event) : FS :=
  match e.substitution with
  | some pOn =>
      if pOn ≠ "" ∧ pOn ∉ fs.1 then (fadd pOn fs.1, aset pOn (elapsed e) fs.2)
      else fs
  | none => fs

/-- Field-only mirror of mainStep. -/
def gMainStep (fs : FS) (e : Event) : FS :=
  if e.type = sSubstitution then gSubIn (gSubOut fs e) e else fs

/-- A state transformer F is a local pass mirrored by the field-only G:
its field components follow G regardless of the totals dict, and its
totals component is a local dict transformer for every fixed field
state. -/
def PassLocal (F : MState → MState) (G : FS → FS) : Prop :=
  ∀ of stt,
    (∀ d, (((F { onField := of, startTime := stt, totals := d }).onField,
            (F { onField := of, startTime := stt, totals := d }).startTime) = G (of, stt))) ∧
      ∃ δ : String → Option ℚ, ∀ d k,
        alookup k (F { onField := of, startTime := stt, totals := d }).totals =
          applyC (δ k) (alookup k d)

/-- Invariant of the per-match scan for an established starter p: p is on
the field, the on-field-since time is 0, and the running total equals the
setdefault of the value v the global dict held when the match began. -/
def Estab (p : String) (v : Option ℚ) (st : MState) : Prop :=
  p ∈ st.onField ∧ alookup p st.startTime = some 0 ∧
    alookup p st.totals = some (v.getD 0)

/-- Before p is recorded as a starter, the totals entry of p is untouched
(still v); afterwards the Estab invariant holds. -/
def UorE (p : String) (v : Option ℚ) (st : MState) : Prop :=
  alookup p st.totals = v ∨ Estab p v st

/-- Invariant of the per-match scan used for non-negativity: all running
totals are non-negative, and every recorded on-field-since time is below
the timestamp of every event still to process and below the closing
timestamp. -/
def InvC2 (endSec : ℤ) (rest : List Event) (st : MState) : Prop :=
  nonnegDict st.totals ∧
    ∀ pr ∈ st.startTime, (∀ e ∈ rest, pr.2 ≤ elapsed e) ∧ pr.2 ≤ endSec

/-- Player name constants used by the concrete scenarios below. -/
def pA : String := "A"

def pB : String := "B"

def pC : String := "C"

def pX : String := "X"

def pY : String := "Y"

def pZ : String := "Z"

/-- Generic closing event for scenarios. -/
def sHalfEnd : String := "Half End"

/-- Scenario of claim C1: one match in period 1 with the last event at
minute 90, a Starting XI listing player A, and a Substitution at minute 60
sending A off and B on. -/
def c1log : List Event :=
  [ { match_id := 1, type := sStartingXI, tactics := some [some pA] },
    { match_id := 1, minute := 60, type := sSubstitution, player := some pA,
      substitution := some pB },
    { match_id := 1, minute := 90, type := sHalfEnd } ]

/-- Counterexample log for claim C2: player B enters at derived second 3000
(period 1, minute 50), while the last event in (period, minute, second)
order is period 2 minute 0 with derived second 2700, so the closing loop
credits B with negative minutes. -/
def c2log : List Event :=
  [ { match_id := 1, type := sStartingXI, tactics := some [some pA] },
    { match_id := 1, minute := 50, type := sSubstitution, player := some pA,
      substitution := some pB },
    { match_id := 1, period := 2, minute := 0, type := sHalfEnd } ]

/-- Counterexample log for claim C3: the event of period 2 minute 0 has the
smaller derived scalar (2700) but the larger (period, minute, second)
triple than the event of period 1 minute 50 (scalar 3000). -/
def c3log : List Event :=
  [ { match_id := 1, period := 2, minute := 0, type := sHalfEnd },
    { match_id := 1, period := 1, minute := 50, type := sHalfEnd } ]

/-- Shared rows of the C4 counterexample: two substitutions at the same
timestamp, whose relative input order decides who ends the match on the
field. -/
def c4s : Event := { match_id := 1, type := sStartingXI, tactics := some [some pX] }

/-- Substitution X off, Y on, minute 10. -/
def c4e1 : Event :=
  { match_id := 1, minute := 10, type := sSubstitution, player := some pX,
    substitution := some pY }

/-- Substitution Y off, Z on, minute 10. -/
def c4e2 : Event :=
  { match_id := 1, minute := 10, type := sSubstitution, player := some pY,
    substitution := some pZ }

/-- Closing row of the C4 counterexample. -/
def c4end : Event := { match_id := 1, minute := 90, type := sHalfEnd }

/-- C4 counterexample, original order. -/
def c4log1 : List Event := [c4s, c4e1, c4e2, c4end]

/-- C4 counterexample, the two tied substitutions swapped. -/
def c4log2 : List Event := [c4s, c4e2, c4e1, c4end]

/-- Witness pair for the amended claim C4: same rows, permuted, all
(period, minute, second) triples distinct within the match. -/
def w4log1 : List Event := [c4s, c4e1, c4end]

/-- Permutation of w4log1. -/
def w4log2 : List Event := [c4e1, c4s, c4end]

/-- Witness log for claim C5: player C starts and is never substituted. -/
def w5log : List Event :=
  [ { match_id := 1, type := sStartingXI, tactics := some [some pC] },
    { match_id := 1, minute := 90, type := sHalfEnd } ]

/-- Witness state for claim C6: X on the field since kickoff. -/
def c6st : MState :=
  { onField := [pX], startTime := [(pX, 0)], totals := [(pX, 0)] }

/-- Witness event for claim C6: substitution naming the never-fielded Z as
outgoing at minute 10, Y incoming. -/
def c6ev : Event :=
  { match_id := 1, minute := 10, type := sSubstitution, player := some pZ,
    substitution := some pY }

/-- Witness event for claim C10: Starting XI row without a well-formed
tactics.lineup but with a non-null player field. -/
def c10ev : Event :=
  { match_id := 1, type := sStartingXI, player := some pB }

/-- A concrete alternative enumeration order of the on-field set for the
C8 witness. -/
def revOrd : MState → List String := fun st => st.onField.reverse

/-- Claim C1: on the one-match scenario (period 1 only, last event at
minute 90 second 0, Starting XI listing A, Substitution at minute 60 with
A off and B on), get_minutes_played returns exactly 60.0 minutes for A and
30.0 minutes for B. -/
theorem c1_scenario_minutes :
    alookup pA (getMinutesPlayed c1log) = some 60 ∧
      alookup pB (getMinutesPlayed c1log) = some 30 := by
  simp [getMinutesPlayed, uniqueIds, uniqStep, matchStep, processMatch, sortE, startingPass, startAct, startEntry, closeStep,
    addStarter, mainStep, subOut, subIn, closeOut, closeOutOn, matchEnd, elapsed, addTo,
    aset, alookup, aerase, dsetdefault, fadd, c1log, pA, pB, sStartingXI, sSubstitution,
    sHalfEnd, leP]
  norm_num

/-- Claim C7: the empty event collection yields the empty mapping, and a
match slice with no events leaves the totals dict untouched. -/
theorem c7_empty_input :
    getMinutesPlayed [] = [] ∧ ∀ d : Dict, processMatch [] d = d :=
  ⟨rfl, fun _ => rfl⟩

/-- Counterexample to claim C2 as universally stated: in c2log the
substitute B enters at derived second 3000 but the last event in the
(period, minute, second) processing order has derived second 2700, so B is
credited -5 minutes; not every output value is non-negative. -/
theorem c2_counterexample : ¬ nonnegDict (getMinutesPlayed c2log) := by
  have h : getMinutesPlayed c2log = [(pA, 50), (pB, -5)] := by
    simp [getMinutesPlayed, uniqueIds, uniqStep, matchStep, processMatch, sortE, startingPass, startAct, startEntry, closeStep,
      addStarter, mainStep, subOut, subIn, closeOut, closeOutOn, matchEnd, elapsed, addTo,
      aset, alookup, aerase, dsetdefault, fadd, c2log, pA, pB, sStartingXI, sSubstitution,
      sHalfEnd, leP]
    all_goals norm_num
  intro hn
  have h2 := hn (pB, -5) (by rw [h]; simp)
  norm_num at h2

theorem leP_of_tkey_eq {a b : Event} (h : tkey a = tkey b) : leP a b := by
  simp only [tkey, Prod.mk.injEq] at h
  unfold leP
  omega

theorem tkey_eq_of_leP_leP {a b : Event} (h1 : leP a b) (h2 : leP b a) :
    tkey a = tkey b := by
  unfold leP at h1 h2
  simp only [tkey, Prod.mk.injEq]
  omega

instance : IsAntisymm Event ltP :=
  ⟨fun _ _ h1 h2 => absurd (tkey_eq_of_leP_leP h1.1 h2.1) h1.2⟩

theorem filter_orderedInsert_key_eq (a : Event) (l : List Event) (k : ℕ × ℕ × ℕ)
    (ha : tkey a = k) :
    (l.orderedInsert leP a).filter (fun e => tkey e == k) =
      a :: l.filter (fun e => tkey e == k) := by
  induction l with
  | nil => simp [ha]
  | cons b t ih =>
    by_cases hle : leP a b
    · simp only [List.orderedInsert, if_pos hle]
      simp [ha]
    · have hb : tkey b ≠ k := by
        intro hbk
        exact hle (leP_of_tkey_eq (ha.trans hbk.symm))
      simp only [List.orderedInsert, if_neg hle]
      simp [List.filter_cons, hb, ih]

theorem filter_orderedInsert_key_ne (a : Event) (l : List Event) (k : ℕ × ℕ × ℕ)
    (ha : tkey a ≠ k) :
    (l.orderedInsert leP a).filter (fun e => tkey e == k) =
      l.filter (fun e => tkey e == k) := by
  induction l with
  | nil => simp [ha]
  | cons b t ih =>
    by_cases hle : leP a b
    · simp only [List.orderedInsert, if_pos hle]
      simp [ha]
    · simp only [List.orderedInsert, if_neg hle]
      simp only [List.filter_cons, ih]

theorem sortE_stable (l : List Event) (k : ℕ × ℕ × ℕ) :
    (sortE l).filter (fun e => tkey e == k) = l.filter (fun e => tkey e == k) := by
  induction l with
  | nil => rfl
  | cons a t ih =>
    show ((List.insertionSort leP t).orderedInsert leP a).filter _ = _
    by_cases ha : tkey a = k
    · rw [filter_orderedInsert_key_eq a _ k ha]
      simp only [List.filter_cons, ha, beq_self_eq_true, if_pos]
      simp only [List.cons.injEq, true_and]
      exact ih
    · rw [filter_orderedInsert_key_ne a _ k ha]
      simp [List.filter_cons, ha]
      exact ih

/-- Counterexample to claim C3 as stated: on c3log the processing order of
get_minutes_played (stable sort by the (period, minute, second) triple)
differs from the stable sort by the derived scalar elapsed_seconds,
because the period 2 minute 0 event has the larger triple but the smaller
scalar. -/
theorem c3_counterexample : sortE c3log ≠ specSort c3log := by decide

/-- Claim C3 amended: within each match, get_minutes_played processes the
events in ascending lexicographic (period, minute, second) order, ties
broken by original input order (the sort is a permutation, sorted under
leP, and stable on every key class).  This coincides with ascending
elapsed_seconds only when the lexicographic order agrees with the derived
scalar. -/
theorem c3_amended_lex_stable_sort :
    ∀ l : List Event,
      (sortE l).Perm l ∧ List.Sorted leP (sortE l) ∧
        ∀ k : ℕ × ℕ × ℕ,
          (sortE l).filter (fun e => tkey e == k) = l.filter (fun e => tkey e == k) :=
  fun l =>
    ⟨List.perm_insertionSort leP l, List.sorted_insertionSort leP l,
      fun k => sortE_stable l k⟩

/-- Counterexample to claim C4 as universally stated: c4log2 permutes
c4log1 (swapping two substitutions that share the timestamp minute 10),
yet the returned mapping differs at player Y, because the internal sort is
stable and therefore keeps the input order of tied events. -/
theorem c4_counterexample :
    c4log1.Perm c4log2 ∧
      alookup pY (getMinutesPlayed c4log1) ≠ alookup pY (getMinutesPlayed c4log2) := by
  refine ⟨(List.Perm.swap c4e2 c4e1 [c4end]).cons c4s, ?_⟩
  have h1 : alookup pY (getMinutesPlayed c4log1) = some 0 := by
    simp [getMinutesPlayed, uniqueIds, uniqStep, matchStep, processMatch, sortE, startingPass, startAct, startEntry, closeStep,
      addStarter, mainStep, subOut, subIn, closeOut, closeOutOn, matchEnd, elapsed, addTo,
      aset, alookup, aerase, dsetdefault, fadd, c4log1, c4s, c4e1, c4e2, c4end, pX, pY,
      pZ, sStartingXI, sSubstitution, sHalfEnd, leP]
  have h2 : alookup pY (getMinutesPlayed c4log2) = some 80 := by
    simp [getMinutesPlayed, uniqueIds, uniqStep, matchStep, processMatch, sortE, startingPass, startAct, startEntry, closeStep,
      addStarter, mainStep, subOut, subIn, closeOut, closeOutOn, matchEnd, elapsed, addTo,
      aset, alookup, aerase, dsetdefault, fadd, c4log2, c4s, c4e1, c4e2, c4end, pX, pY,
      pZ, sStartingXI, sSubstitution, sHalfEnd, leP]
    all_goals norm_num
  rw [h1, h2]
  norm_num

theorem alookup_aset_self {β : Type} (p : String) (v : β) (l : List (String × β)) :
    alookup p (aset p v l) = some v := by
  induction l with
  | nil => simp [aset, alookup]
  | cons qw t ih =>
    obtain ⟨q, w⟩ := qw
    by_cases h : p = q
    · simp [aset, alookup, h]
    · simp [aset, alookup, h, ih]

theorem alookup_aset_ne {β : Type} {p k : String} (v : β) (l : List (String × β))
    (h : k ≠ p) : alookup k (aset p v l) = alookup k l := by
  induction l with
  | nil => simp [aset, alookup, h]
  | cons qw t ih =>
    obtain ⟨q, w⟩ := qw
    by_cases hpq : p = q
    · subst hpq
      simp [aset, alookup, h]
    · by_cases hkq : k = q <;> simp [aset, alookup, hpq, hkq, ih]

theorem alookup_append {β : Type} (p : String) (d₁ d₂ : List (String × β)) :
    alookup p (d₁ ++ d₂) =
      match alookup p d₁ with
      | some v => some v
      | none => alookup p d₂ := by
  induction d₁ with
  | nil => simp [alookup]
  | cons qw t ih =>
    obtain ⟨q, w⟩ := qw
    by_cases h : p = q <;> simp [alookup, h, ih]

theorem alookup_dsetdefault_self (p : String) (d : Dict) :
    alookup p (dsetdefault p d) = some ((alookup p d).getD 0) := by
  rcases h : alookup p d with _ | w
  · simp [dsetdefault, h, alookup_append, alookup]
  · simp [dsetdefault, h]

theorem alookup_dsetdefault_ne {p k : String} (d : Dict) (h : k ≠ p) :
    alookup k (dsetdefault p d) = alookup k d := by
  rcases hp : alookup p d with _ | w
  · simp [dsetdefault, hp, alookup_append, alookup, h]
    cases alookup k d <;> rfl
  · simp [dsetdefault, hp]

theorem alookup_addTo_self (p : String) (c : ℚ) (d : Dict) :
    alookup p (addTo p c d) = some ((alookup p d).getD 0 + c) :=
  alookup_aset_self p _ d

theorem alookup_addTo_ne {p k : String} (c : ℚ) (d : Dict) (h : k ≠ p) :
    alookup k (addTo p c d) = alookup k d :=
  alookup_aset_ne _ d h

theorem alookup_aerase_ne {β : Type} {p k : String} (l : List (String × β))
    (h : k ≠ p) : alookup k (aerase p l) = alookup k l := by
  induction l with
  | nil => simp [aerase]
  | cons qw t ih =>
    obtain ⟨q, w⟩ := qw
    by_cases hpq : p = q
    · subst hpq
      simp [aerase, alookup, h]
    · by_cases hkq : k = q <;> simp [aerase, alookup, hpq, hkq, ih]

theorem mem_fadd_self (p : String) (s : List String) : p ∈ fadd p s := by
  by_cases h : p ∈ s <;> simp [fadd, h]

theorem mem_fadd_of_mem {q : String} (p : String) {s : List String} (h : q ∈ s) :
    q ∈ fadd p s := by
  by_cases hp : p ∈ s <;> simp [fadd, hp, h]

/-- Claim C6: a Substitution whose outgoing player is not on the field
leaves the state untouched on the removal side (no entry created or
mutated for that player), and the incoming side of the same event is still
processed exactly as usual.  All functions are total, so no exception can
arise. -/
theorem c6_unknown_outgoing (st : MState) (e : Event) (z : String)
    (ht : e.type = sSubstitution) (hz : e.player = some z)
    (hmem : z ∉ st.onField) :
    subOut st e = st ∧ mainStep st e = subIn st e := by
  have h1 : subOut st e = st := by
    unfold subOut
    rw [hz]
    simp [hmem]
  refine ⟨h1, ?_⟩
  unfold mainStep
  rw [if_pos ht, h1]

/-- Witness for claim C6: the concrete state c6st (only X fielded) and the
substitution c6ev naming the never-fielded Z as outgoing. -/
theorem c6_unknown_outgoing_witness :
    subOut c6st c6ev = c6st ∧ mainStep c6st c6ev = subIn c6st c6ev :=
  c6_unknown_outgoing c6st c6ev pZ rfl rfl (by decide)

/-- Claim C10: a Starting XI event without a well-formed tactics.lineup
but with a non-null player field treats that single player as a starter:
the row reduces to addStarter, which puts the player on the field, sets
the on-field-since time to 0 and setdefaults the total to 0. -/
theorem c10_single_player_fallback (st : MState) (e : Event) (p : String)
    (_ht : e.type = sStartingXI) (htac : e.tactics = none)
    (hp : e.player = some p) :
    startAct st e = addStarter p st ∧
      p ∈ (addStarter p st).onField ∧
      alookup p (addStarter p st).startTime = some 0 ∧
      alookup p (addStarter p st).totals = some ((alookup p st.totals).getD 0) := by
  refine ⟨?_, mem_fadd_self p st.onField, alookup_aset_self p 0 st.startTime,
    alookup_dsetdefault_self p st.totals⟩
  unfold startAct
  rw [htac, hp]

/-- Witness for claim C10: the concrete Starting XI row c10ev (tactics
malformed, player B) acting on the empty state. -/
theorem c10_single_player_fallback_witness :
    startAct { onField := [], startTime := [], totals := [] } c10ev =
        addStarter pB { onField := [], startTime := [], totals := [] } ∧
      pB ∈ (addStarter pB { onField := [], startTime := [], totals := [] }).onField ∧
      alookup pB (addStarter pB { onField := [], startTime := [], totals := [] }).startTime = some 0 ∧
      alookup pB (addStarter pB { onField := [], startTime := [], totals := [] }).totals =
        some ((alookup pB ({ onField := [], startTime := [], totals := [] } : MState).totals).getD 0) :=
  c10_single_player_fallback { onField := [], startTime := [], totals := [] } c10ev pB rfl rfl rfl

theorem pyRound_zero (n : ℕ) : pyRound 0 n = 0 := by
  have h : rhe 0 = 0 := by norm_num [rhe]
  simp [pyRound, h]

/-- Claim C9: when the minutes series lacks the player or stores 0, the
per-90 factor is 0, the whole statistics branch is skipped (so no division
is evaluated), and every per-90 figure and both success rates in the
returned record are exactly 0. -/
theorem c9_zero_minutes_zero_stats (df : List Event) (p : String) (m : Dict)
    (t : String) (h : alookup p m = none ∨ alookup p m = some 0) :
    (getPlayerStats df p m t).goals_p90 = 0 ∧
      (getPlayerStats df p m t).assists_p90 = 0 ∧
      (getPlayerStats df p m t).total_shots_p90 = 0 ∧
      (getPlayerStats df p m t).xg_sum_p90 = 0 ∧
      (getPlayerStats df p m t).successful_passes_p90 = 0 ∧
      (getPlayerStats df p m t).pass_success_rate = 0 ∧
      (getPlayerStats df p m t).dribbles_completed_p90 = 0 ∧
      (getPlayerStats df p m t).dribble_success_rate = 0 := by
  have hm : (alookup p m).getD 0 = (0 : ℚ) := by
    rcases h with h | h <;> simp [h]
  simp [getPlayerStats, hm, pyRound_zero]

/-- Witness for claim C9: the concrete minutes dict storing 0 for player
A. -/
theorem c9_zero_minutes_zero_stats_witness :
    (getPlayerStats [] pA [(pA, 0)] "").goals_p90 = 0 ∧
      (getPlayerStats [] pA [(pA, 0)] "").assists_p90 = 0 ∧
      (getPlayerStats [] pA [(pA, 0)] "").total_shots_p90 = 0 ∧
      (getPlayerStats [] pA [(pA, 0)] "").xg_sum_p90 = 0 ∧
      (getPlayerStats [] pA [(pA, 0)] "").successful_passes_p90 = 0 ∧
      (getPlayerStats [] pA [(pA, 0)] "").pass_success_rate = 0 ∧
      (getPlayerStats [] pA [(pA, 0)] "").dribbles_completed_p90 = 0 ∧
      (getPlayerStats [] pA [(pA, 0)] "").dribble_success_rate = 0 :=
  c9_zero_minutes_zero_stats [] pA [(pA, 0)] "" (Or.inr (by simp [alookup, pA]))

theorem Estab_addStarter {p : String} {v : Option ℚ} {st : MState} (q : String)
    (h : Estab p v st) : Estab p v (addStarter q st) := by
  obtain ⟨h1, h2, h3⟩ := h
  refine ⟨mem_fadd_of_mem q h1, ?_, ?_⟩
  · by_cases hq : p = q
    · subst hq
      exact alookup_aset_self p 0 st.startTime
    · rw [show (addStarter q st).startTime = aset q 0 st.startTime from rfl,
        alookup_aset_ne _ _ hq]
      exact h2
  · by_cases hq : p = q
    · subst hq
      rw [show (addStarter p st).totals = dsetdefault p st.totals from rfl,
        alookup_dsetdefault_self, h3]
      simp
    · rw [show (addStarter q st).totals = dsetdefault q st.totals from rfl,
        alookup_dsetdefault_ne _ hq]
      exact h3

theorem estab_addStarter_self {p : String} {v : Option ℚ} {st : MState}
    (h : UorE p v st) : Estab p v (addStarter p st) := by
  refine ⟨mem_fadd_self p _, alookup_aset_self p 0 _, ?_⟩
  rw [show (addStarter p st).totals = dsetdefault p st.totals from rfl,
    alookup_dsetdefault_self]
  rcases h with h | h
  · rw [h]
  · rw [h.2.2]
    simp

theorem UorE_addStarter {p : String} {v : Option ℚ} {st : MState} (q : String)
    (h : UorE p v st) : UorE p v (addStarter q st) := by
  rcases h with h | h
  · by_cases hq : p = q
    · subst hq
      exact Or.inr (estab_addStarter_self (Or.inl h))
    · left
      rw [show (addStarter q st).totals = dsetdefault q st.totals from rfl,
        alookup_dsetdefault_ne _ hq]
      exact h
  · exact Or.inr (Estab_addStarter q h)

theorem Estab_startEntry {p : String} {v : Option ℚ} {st : MState}
    (entry : Option String) (h : Estab p v st) : Estab p v (startEntry st entry) := by
  cases entry with
  | none => exact h
  | some q => exact Estab_addStarter q h

theorem UorE_startEntry {p : String} {v : Option ℚ} {st : MState}
    (entry : Option String) (h : UorE p v st) : UorE p v (startEntry st entry) := by
  cases entry with
  | none => exact h
  | some q => exact UorE_addStarter q h

theorem Estab_lineup_foldl {p : String} {v : Option ℚ} (lu : List (Option String)) :
    ∀ st : MState, Estab p v st → Estab p v (lu.foldl startEntry st) := by
  induction lu with
  | nil => exact fun st h => h
  | cons a t ih => exact fun st h => ih _ (Estab_startEntry a h)

theorem UorE_lineup_foldl {p : String} {v : Option ℚ} (lu : List (Option String)) :
    ∀ st : MState, UorE p v st → UorE p v (lu.foldl startEntry st) := by
  induction lu with
  | nil => exact fun st h => h
  | cons a t ih => exact fun st h => ih _ (UorE_startEntry a h)

theorem estab_lineup_of_mem {p : String} {v : Option ℚ} (lu : List (Option String)) :
    ∀ st : MState, UorE p v st → some p ∈ lu → Estab p v (lu.foldl startEntry st) := by
  induction lu with
  | nil => exact fun st _ hm => absurd hm (List.not_mem_nil _)
  | cons a t ih =>
    intro st h hm
    rcases List.mem_cons.mp hm with ha | ht
    · rw [← ha]
      exact Estab_lineup_foldl t _ (estab_addStarter_self h)
    · exact ih _ (UorE_startEntry a h) ht

theorem Estab_startAct {p : String} {v : Option ℚ} (st : MState) (e : Event)
    (h : Estab p v st) : Estab p v (startAct st e) := by
  unfold startAct
  rcases htac : e.tactics with _ | lu
  · rcases hp : e.player with _ | q
    · exact h
    · exact Estab_addStarter q h
  · exact Estab_lineup_foldl lu st h

theorem UorE_startAct {p : String} {v : Option ℚ} (st : MState) (e : Event)
    (h : UorE p v st) : UorE p v (startAct st e) := by
  unfold startAct
  rcases htac : e.tactics with _ | lu
  · rcases hp : e.player with _ | q
    · exact h
    · exact UorE_addStarter q h
  · exact UorE_lineup_foldl lu st h

theorem Estab_startAct_of_starter {p : String} {v : Option ℚ} (st : MState)
    (e : Event) (h : UorE p v st) (hs : starterB p e = true) :
    Estab p v (startAct st e) := by
  unfold starterB at hs
  rw [Bool.and_eq_true] at hs
  obtain ⟨-, hs2⟩ := hs
  unfold startAct
  rcases htac : e.tactics with _ | lu
  · simp only [htac] at hs2
    have hp : e.player = some p := of_decide_eq_true hs2
    rw [hp]
    exact estab_addStarter_self h
  · simp only [htac] at hs2
    exact estab_lineup_of_mem lu st h (of_decide_eq_true hs2)

theorem Estab_startAct_foldl {p : String} {v : Option ℚ} (es : List Event) :
    ∀ st : MState, Estab p v st → Estab p v (es.foldl startAct st) := by
  induction es with
  | nil => exact fun st h => h
  | cons a t ih => exact fun st h => ih _ (Estab_startAct st a h)

theorem estab_foldl_startAct {p : String} {v : Option ℚ} (es : List Event) :
    ∀ st : MState, UorE p v st → (∃ e ∈ es, starterB p e = true) →
      Estab p v (es.foldl startAct st) := by
  induction es with
  | nil =>
    intro st _ hex
    obtain ⟨e, he, _⟩ := hex
    exact absurd he (List.not_mem_nil _)
  | cons a t ih =>
    intro st h hex
    obtain ⟨e, he, hs⟩ := hex
    rcases List.mem_cons.mp he with rfl | ht
    · exact Estab_startAct_foldl t _ (Estab_startAct_of_starter st e h hs)
    · exact ih _ (UorE_startAct st a h) ⟨e, ht, hs⟩

theorem estab_startingPass {p : String} {v : Option ℚ} (evs : List Event)
    (st : MState) (h : UorE p v st) (hex : ∃ e ∈ evs, isStarterIn p e) :
    Estab p v (startingPass evs st) := by
  obtain ⟨e, he, hs⟩ := hex
  have hs' : starterB p e = true := hs
  have htype : (e.type == sStartingXI) = true := by
    have hh := hs'
    unfold starterB at hh
    rw [Bool.and_eq_true] at hh
    exact hh.1
  exact estab_foldl_startAct _ st h ⟨e, List.mem_filter.mpr ⟨he, htype⟩, hs'⟩

theorem Estab_mainStep {p : String} {v : Option ℚ} (st : MState) (e : Event)
    (h : Estab p v st) (hne : e.type = sSubstitution → e.player ≠ some p) :
    Estab p v (mainStep st e) := by
  unfold mainStep
  by_cases htype : e.type = sSubstitution
  · rw [if_pos htype]
    have hplayer := hne htype
    have h1 : Estab p v (subOut st e) := by
      unfold subOut
      rcases hp : e.player with _ | pOff
      · exact h
      · rw [hp] at hplayer
        have hpp : pOff ≠ p := fun hh => hplayer (by rw [hh])
        by_cases hmem : pOff ∈ st.onField
        · simp only [if_pos hmem]
          refine ⟨?_, ?_, ?_⟩
          · exact List.mem_filter.mpr ⟨h.1, by simp [bne_iff_ne]; exact Ne.symm hpp⟩
          · rw [alookup_aerase_ne _ (Ne.symm hpp)]
            exact h.2.1
          · rw [alookup_addTo_ne _ _ (Ne.symm hpp)]
            exact h.2.2
        · simp only [if_neg hmem]
          exact h
    unfold subIn
    rcases hr : e.substitution with _ | pOn
    · exact h1
    · by_cases hcond : pOn ≠ "" ∧ pOn ∉ (subOut st e).onField
      · simp only [if_pos hcond]
        have hpOn : pOn ≠ p := by
          intro hh
          subst hh
          exact hcond.2 h1.1
        exact ⟨mem_fadd_of_mem pOn h1.1,
          by rw [alookup_aset_ne _ _ (Ne.symm hpOn)]; exact h1.2.1,
          by rw [alookup_dsetdefault_ne _ (Ne.symm hpOn)]; exact h1.2.2⟩
      · simp only [if_neg hcond]
        exact h1
  · rw [if_neg htype]
    exact h

theorem Estab_mainStep_foldl {p : String} {v : Option ℚ} (evs : List Event) :
    ∀ st : MState, Estab p v st →
      (∀ e ∈ evs, e.type = sSubstitution → e.player ≠ some p) →
      Estab p v (evs.foldl mainStep st) := by
  induction evs with
  | nil => exact fun st h _ => h
  | cons a t ih =>
    intro st h hne
    exact ih _ (Estab_mainStep st a h (hne a (List.mem_cons_self a t)))
      fun e he => hne e (List.mem_cons_of_mem a he)

theorem fadd_nodup {s : List String} (p : String) (h : s.Nodup) :
    (fadd p s).Nodup := by
  by_cases hm : p ∈ s
  · simpa [fadd, hm] using h
  · rw [fadd, if_neg hm]
    refine List.Nodup.append h (by simp) ?_
    intro a ha hab
    simp only [List.mem_singleton] at hab
    subst hab
    exact hm ha

theorem nodup_onField_addStarter {st : MState} (q : String)
    (h : st.onField.Nodup) : (addStarter q st).onField.Nodup :=
  fadd_nodup q h

theorem nodup_onField_startEntry {st : MState} (entry : Option String)
    (h : st.onField.Nodup) : (startEntry st entry).onField.Nodup := by
  cases entry with
  | none => exact h
  | some q => exact nodup_onField_addStarter q h

theorem nodup_onField_lineup_foldl (lu : List (Option String)) :
    ∀ st : MState, st.onField.Nodup → (lu.foldl startEntry st).onField.Nodup := by
  induction lu with
  | nil => exact fun st h => h
  | cons a t ih => exact fun st h => ih _ (nodup_onField_startEntry a h)

theorem nodup_onField_startAct (st : MState) (e : Event)
    (h : st.onField.Nodup) : (startAct st e).onField.Nodup := by
  unfold startAct
  rcases e.tactics with _ | lu
  · rcases e.player with _ | q
    · exact h
    · exact nodup_onField_addStarter q h
  · exact nodup_onField_lineup_foldl lu st h

theorem nodup_onField_startAct_foldl (es : List Event) :
    ∀ st : MState, st.onField.Nodup → (es.foldl startAct st).onField.Nodup := by
  induction es with
  | nil => exact fun st h => h
  | cons a t ih => exact fun st h => ih _ (nodup_onField_startAct st a h)

theorem nodup_onField_mainStep (st : MState) (e : Event)
    (h : st.onField.Nodup) : (mainStep st e).onField.Nodup := by
  unfold mainStep
  by_cases htype : e.type = sSubstitution
  · rw [if_pos htype]
    have h1 : (subOut st e).onField.Nodup := by
      unfold subOut
      rcases e.player with _ | pOff
      · exact h
      · by_cases hmem : pOff ∈ st.onField
        · simp only [if_pos hmem]
          exact h.filter _
        · simp only [if_neg hmem]
          exact h
    unfold subIn
    rcases e.substitution with _ | pOn
    · exact h1
    · by_cases hcond : pOn ≠ "" ∧ pOn ∉ (subOut st e).onField
      · simp only [if_pos hcond]
        exact fadd_nodup pOn h1
      · simp only [if_neg hcond]
        exact h1
  · rw [if_neg htype]
    exact h

theorem nodup_onField_mainStep_foldl (evs : List Event) :
    ∀ st : MState, st.onField.Nodup → (evs.foldl mainStep st).onField.Nodup := by
  induction evs with
  | nil => exact fun st h => h
  | cons a t ih => exact fun st h => ih _ (nodup_onField_mainStep st a h)

theorem alookup_closeOutOn_not_mem {p : String} (ps : List String)
    (stt : List (String × ℤ)) (endSec : ℤ) :
    ∀ d : Dict, p ∉ ps → alookup p (closeOutOn ps stt endSec d) = alookup p d := by
  induction ps with
  | nil => exact fun d _ => rfl
  | cons q t ih =>
    intro d hp
    have hq : p ≠ q := fun hh => hp (hh ▸ List.mem_cons_self q t)
    have hpt : p ∉ t := fun hh => hp (List.mem_cons_of_mem q hh)
    show alookup p (closeOutOn t stt endSec (closeStep stt endSec d q)) = _
    rw [ih _ hpt]
    exact alookup_addTo_ne _ _ hq

theorem alookup_closeOutOn_mem {p : String} (ps : List String)
    (stt : List (String × ℤ)) (endSec : ℤ) :
    ∀ d : Dict, ps.Nodup → p ∈ ps →
      alookup p (closeOutOn ps stt endSec d) =
        some ((alookup p d).getD 0 +
          ((endSec - (alookup p stt).getD 0 : ℤ) : ℚ) / 60) := by
  induction ps with
  | nil =>
    intro d _ hp
    exact absurd hp (List.not_mem_nil _)
  | cons q t ih =>
    intro d hnd hp
    rcases List.mem_cons.mp hp with rfl | hpt
    · have hpt : p ∉ t := (List.nodup_cons.mp hnd).1
      show alookup p (closeOutOn t stt endSec (closeStep stt endSec d p)) = _
      rw [alookup_closeOutOn_not_mem t stt endSec _ hpt]
      exact alookup_addTo_self p _ d
    · by_cases hq : p = q
      · subst hq
        exact absurd hpt (List.nodup_cons.mp hnd).1
      · show alookup p (closeOutOn t stt endSec (closeStep stt endSec d q)) = _
        rw [ih _ (List.nodup_cons.mp hnd).2 hpt]
        rw [show closeStep stt endSec d q = addTo q _ d from rfl,
          alookup_addTo_ne _ _ hq]

theorem processMatch_starter_full (evs : List Event) (d : Dict) (p : String)
    (h1 : ∃ e ∈ evs, isStarterIn p e)
    (h2 : ∀ e ∈ evs, e.type = sSubstitution → e.player ≠ some p) :
    alookup p (processMatch evs d) =
      some ((alookup p d).getD 0 + ((matchEnd evs : ℚ)) / 60) := by
  have hperm := List.perm_insertionSort leP evs
  have h1s : ∃ e ∈ sortE evs, isStarterIn p e := by
    obtain ⟨e, he, hs⟩ := h1
    exact ⟨e, hperm.mem_iff.mpr he, hs⟩
  have h2s : ∀ e ∈ sortE evs, e.type = sSubstitution → e.player ≠ some p :=
    fun e he => h2 e (hperm.mem_iff.mp he)
  have hE1 : Estab p (alookup p d)
      (startingPass (sortE evs) { onField := [], startTime := [], totals := d }) :=
    estab_startingPass _ _ (Or.inl rfl) h1s
  have hE2 : Estab p (alookup p d)
      ((sortE evs).foldl mainStep
        (startingPass (sortE evs) { onField := [], startTime := [], totals := d })) :=
    Estab_mainStep_foldl _ _ hE1 h2s
  have hnd0 : (startingPass (sortE evs)
      { onField := [], startTime := [], totals := d }).onField.Nodup :=
    nodup_onField_startAct_foldl _ _ (by simp)
  have hnd : ((sortE evs).foldl mainStep
      (startingPass (sortE evs)
        { onField := [], startTime := [], totals := d })).onField.Nodup :=
    nodup_onField_mainStep_foldl _ _ hnd0
  show alookup p
      (closeOut (matchEnd evs)
        ((sortE evs).foldl mainStep
          (startingPass (sortE evs) { onField := [], startTime := [], totals := d }))) = _
  unfold closeOut
  rw [alookup_closeOutOn_mem _ _ _ _ hnd hE2.1, hE2.2.1, hE2.2.2]
  simp

/-- Claim C5: for every match of the log, a player listed by a Starting XI
event of that match and never named as the outgoing player of any
Substitution event of that match is credited exactly
match_end_seconds / 60 minutes for that match, where match_end_seconds is
the derived timestamp of the last event of the sorted slice (the credit is
added to whatever total the player carried into the match). -/
theorem c5_starter_plays_whole_match (l : List Event) (mid : ℕ) (p : String)
    (d : Dict) (_hmid : mid ∈ l.map (fun e => e.match_id))
    (h1 : ∃ e ∈ l.filter (fun e => e.match_id == mid), isStarterIn p e)
    (h2 : ∀ e ∈ l.filter (fun e => e.match_id == mid),
      e.type = sSubstitution → e.player ≠ some p) :
    alookup p (processMatch (l.filter (fun e => e.match_id == mid)) d) =
      some ((alookup p d).getD 0 +
        ((matchEnd (l.filter (fun e => e.match_id == mid)) : ℚ)) / 60) :=
  processMatch_starter_full _ d p h1 h2

/-- Witness for claim C5: in w5log (one match, C starts at kickoff, last
event at minute 90), processing match 1 from the empty dict credits C with
0 + 5400 / 60 minutes. -/
theorem c5_starter_plays_whole_match_witness :
    alookup pC (processMatch (w5log.filter (fun e => e.match_id == 1)) []) =
      some ((alookup pC ([] : Dict)).getD 0 +
        ((matchEnd (w5log.filter (fun e => e.match_id == 1)) : ℚ)) / 60) :=
  c5_starter_plays_whole_match w5log 1 pC [] (by decide) (by decide) (by decide)

theorem mem_aset {β : Type} {pr : String × β} {p : String} {v : β} :
    ∀ {l : List (String × β)}, pr ∈ aset p v l → pr.2 = v ∨ pr ∈ l := by
  intro l
  induction l with
  | nil =>
    intro h
    simp only [aset, List.mem_singleton] at h
    subst h
    exact Or.inl rfl
  | cons qw t ih =>
    obtain ⟨q, w⟩ := qw
    intro h
    by_cases hpq : p = q
    · simp only [aset, if_pos hpq] at h
      rcases List.mem_cons.mp h with rfl | hmem
      · exact Or.inl rfl
      · exact Or.inr (List.mem_cons_of_mem _ hmem)
    · simp only [aset, if_neg hpq] at h
      rcases List.mem_cons.mp h with rfl | hmem
      · exact Or.inr (List.mem_cons_self _ _)
      · rcases ih hmem with hv | hold
        · exact Or.inl hv
        · exact Or.inr (List.mem_cons_of_mem _ hold)

theorem mem_aerase {β : Type} {pr : String × β} {p : String} :
    ∀ {l : List (String × β)}, pr ∈ aerase p l → pr ∈ l := by
  intro l
  induction l with
  | nil => exact fun h => h
  | cons qw t ih =>
    obtain ⟨q, w⟩ := qw
    intro h
    by_cases hpq : p = q
    · simp only [aerase, if_pos hpq] at h
      exact List.mem_cons_of_mem _ h
    · simp only [aerase, if_neg hpq] at h
      rcases List.mem_cons.mp h with rfl | hmem
      · exact List.mem_cons_self _ _
      · exact List.mem_cons_of_mem _ (ih hmem)

theorem nonnegDict_aset {d : Dict} {p : String} {v : ℚ} (hd : nonnegDict d)
    (hv : 0 ≤ v) : nonnegDict (aset p v d) := by
  intro pr hpr
  rcases mem_aset hpr with h | h
  · rw [h]; exact hv
  · exact hd pr h

theorem nonnegDict_dsetdefault {d : Dict} (p : String) (hd : nonnegDict d) :
    nonnegDict (dsetdefault p d) := by
  unfold dsetdefault
  rcases alookup p d with _ | w
  · intro pr hpr
    rcases List.mem_append.mp hpr with h | h
    · exact hd pr h
    · simp only [List.mem_singleton] at h
      rw [h]
  · exact hd

theorem alookup_getD_nonneg {d : Dict} (p : String) (hd : nonnegDict d) :
    0 ≤ (alookup p d).getD 0 := by
  induction d with
  | nil => simp [alookup]
  | cons qw t ih =>
    obtain ⟨q, w⟩ := qw
    by_cases hpq : p = q
    · simp only [alookup, if_pos hpq, Option.getD_some]
      exact hd (q, w) (List.mem_cons_self _ _)
    · simp only [alookup, if_neg hpq]
      exact ih fun pr hpr => hd pr (List.mem_cons_of_mem _ hpr)

theorem nonnegDict_addTo {d : Dict} {p : String} {c : ℚ} (hd : nonnegDict d)
    (hc : 0 ≤ c) : nonnegDict (addTo p c d) :=
  nonnegDict_aset hd (add_nonneg (alookup_getD_nonneg p hd) hc)

theorem startTime_bound_of_alookup {stt : List (String × ℤ)} {endSec : ℤ}
    {rest : List Event}
    (hb : ∀ pr ∈ stt, (∀ e ∈ rest, pr.2 ≤ elapsed e) ∧ pr.2 ≤ endSec)
    (p : String) (h0 : ∀ e ∈ rest, (0 : ℤ) ≤ elapsed e) (hend : 0 ≤ endSec) :
    (∀ e ∈ rest, (alookup p stt).getD 0 ≤ elapsed e) ∧
      (alookup p stt).getD 0 ≤ endSec := by
  induction stt with
  | nil => simpa [alookup] using ⟨h0, hend⟩
  | cons qw t ih =>
    obtain ⟨q, w⟩ := qw
    by_cases hpq : p = q
    · simp only [alookup, if_pos hpq, Option.getD_some]
      exact hb (q, w) (List.mem_cons_self _ _)
    · simp only [alookup, if_neg hpq]
      exact ih fun pr hpr => hb pr (List.mem_cons_of_mem _ hpr)

theorem InvC2_tail {endSec : ℤ} {e : Event} {rest : List Event} {st : MState}
    (h : InvC2 endSec (e :: rest) st) : InvC2 endSec rest st :=
  ⟨h.1, fun pr hpr =>
    ⟨fun x hx => (h.2 pr hpr).1 x (List.mem_cons_of_mem e hx), (h.2 pr hpr).2⟩⟩

theorem InvC2_addStarter {endSec : ℤ} {rest : List Event} {st : MState}
    (q : String) (h0 : ∀ e ∈ rest, (0 : ℤ) ≤ elapsed e) (hend : 0 ≤ endSec)
    (h : InvC2 endSec rest st) : InvC2 endSec rest (addStarter q st) := by
  refine ⟨nonnegDict_dsetdefault q h.1, ?_⟩
  intro pr hpr
  rcases mem_aset hpr with hv | hold
  · rw [hv]
    exact ⟨h0, hend⟩
  · exact h.2 pr hold

theorem InvC2_startEntry {endSec : ℤ} {rest : List Event} {st : MState}
    (entry : Option String) (h0 : ∀ e ∈ rest, (0 : ℤ) ≤ elapsed e)
    (hend : 0 ≤ endSec) (h : InvC2 endSec rest st) :
    InvC2 endSec rest (startEntry st entry) := by
  cases entry with
  | none => exact h
  | some q => exact InvC2_addStarter q h0 hend h

theorem InvC2_lineup_foldl {endSec : ℤ} {rest : List Event}
    (lu : List (Option String)) (h0 : ∀ e ∈ rest, (0 : ℤ) ≤ elapsed e)
    (hend : 0 ≤ endSec) :
    ∀ st : MState, InvC2 endSec rest st →
      InvC2 endSec rest (lu.foldl startEntry st) := by
  induction lu with
  | nil => exact fun st h => h
  | cons a t ih => exact fun st h => ih _ (InvC2_startEntry a h0 hend h)

theorem InvC2_startAct {endSec : ℤ} {rest : List Event} (st : MState) (e : Event)
    (h0 : ∀ x ∈ rest, (0 : ℤ) ≤ elapsed x) (hend : 0 ≤ endSec)
    (h : InvC2 endSec rest st) : InvC2 endSec rest (startAct st e) := by
  unfold startAct
  rcases e.tactics with _ | lu
  · rcases e.player with _ | q
    · exact h
    · exact InvC2_addStarter q h0 hend h
  · exact InvC2_lineup_foldl lu h0 hend st h

theorem InvC2_startAct_foldl {endSec : ℤ} {rest : List Event} (es : List Event)
    (h0 : ∀ x ∈ rest, (0 : ℤ) ≤ elapsed x) (hend : 0 ≤ endSec) :
    ∀ st : MState, InvC2 endSec rest st →
      InvC2 endSec rest (es.foldl startAct st) := by
  induction es with
  | nil => exact fun st h => h
  | cons a t ih => exact fun st h => ih _ (InvC2_startAct st a h0 hend h)

theorem InvC2_mainStep {endSec : ℤ} (e : Event) (rest : List Event) (st : MState)
    (hall : ∀ x ∈ e :: rest, (0 : ℤ) ≤ elapsed x ∧ elapsed x ≤ endSec)
    (hpw : ∀ x ∈ rest, elapsed e ≤ elapsed x) (hend : 0 ≤ endSec)
    (h : InvC2 endSec (e :: rest) st) : InvC2 endSec rest (mainStep st e) := by
  unfold mainStep
  by_cases htype : e.type = sSubstitution
  · rw [if_pos htype]
    have h0head : ∀ x ∈ e :: rest, (0 : ℤ) ≤ elapsed x := fun x hx => (hall x hx).1
    have h1 : InvC2 endSec rest (subOut st e) := by
      unfold subOut
      rcases e.player with _ | pOff
      · exact InvC2_tail h
      · by_cases hmem : pOff ∈ st.onField
        · simp only [if_pos hmem]
          have hs := startTime_bound_of_alookup h.2 pOff h0head hend
          have hc : (0 : ℚ) ≤ ((elapsed e - (alookup pOff st.startTime).getD 0 : ℤ) : ℚ) / 60 := by
            apply div_nonneg _ (by norm_num)
            have := hs.1 e (List.mem_cons_self e rest)
            exact_mod_cast sub_nonneg.mpr this
          refine ⟨nonnegDict_addTo h.1 hc, ?_⟩
          intro pr hpr
          have hold := h.2 pr (mem_aerase hpr)
          exact ⟨fun x hx => hold.1 x (List.mem_cons_of_mem e hx), hold.2⟩
        · simp only [if_neg hmem]
          exact InvC2_tail h
    unfold subIn
    rcases e.substitution with _ | pOn
    · exact h1
    · by_cases hcond : pOn ≠ "" ∧ pOn ∉ (subOut st e).onField
      · simp only [if_pos hcond]
        refine ⟨nonnegDict_dsetdefault pOn h1.1, ?_⟩
        intro pr hpr
        rcases mem_aset hpr with hv | hold
        · rw [hv]
          exact ⟨hpw, (hall e (List.mem_cons_self e rest)).2⟩
        · exact h1.2 pr hold
      · simp only [if_neg hcond]
        exact h1
  · rw [if_neg htype]
    exact InvC2_tail h

theorem InvC2_mainStep_foldl {endSec : ℤ} (evs : List Event) :
    ∀ st : MState,
      List.Pairwise (fun a b => elapsed a ≤ elapsed b) evs →
      (∀ x ∈ evs, (0 : ℤ) ≤ elapsed x ∧ elapsed x ≤ endSec) → 0 ≤ endSec →
      InvC2 endSec evs st → InvC2 endSec [] (evs.foldl mainStep st) := by
  induction evs with
  | nil => exact fun st _ _ _ h => h
  | cons a t ih =>
    intro st hpw hall hend h
    exact ih _ (List.pairwise_cons.mp hpw).2
      (fun x hx => hall x (List.mem_cons_of_mem a hx)) hend
      (InvC2_mainStep a t st hall (List.pairwise_cons.mp hpw).1 hend h)

theorem nonneg_closeOutOn {endSec : ℤ} {stt : List (String × ℤ)}
    (ps : List String) (hstt : ∀ pr ∈ stt, pr.2 ≤ endSec) (hend : 0 ≤ endSec) :
    ∀ d : Dict, nonnegDict d → nonnegDict (closeOutOn ps stt endSec d) := by
  induction ps with
  | nil => exact fun d hd => hd
  | cons q t ih =>
    intro d hd
    show nonnegDict (closeOutOn t stt endSec (closeStep stt endSec d q))
    apply ih
    apply nonnegDict_addTo hd
    apply div_nonneg _ (by norm_num)
    have hb : (alookup q stt).getD 0 ≤ endSec := by
      have hb0 : ∀ pr ∈ stt, (∀ e ∈ ([] : List Event), pr.2 ≤ elapsed e) ∧
          pr.2 ≤ endSec := fun pr hpr => ⟨by simp, hstt pr hpr⟩
      exact (startTime_bound_of_alookup hb0 q (by simp) hend).2
    exact_mod_cast sub_nonneg.mpr hb

theorem getLast?_eq_some_mem {α : Type} {l : List α} {a : α}
    (h : l.getLast? = some a) : a ∈ l := by
  have h2 : a ∈ l.getLast? := Option.mem_def.mpr h
  obtain ⟨hne, rfl⟩ := List.mem_getLast?_eq_getLast h2
  exact List.getLast_mem hne

theorem le_elapsed_getLast (l : List Event)
    (hp : List.Pairwise (fun a b => elapsed a ≤ elapsed b) l) :
    ∀ x ∈ l, ∀ z, l.getLast? = some z → elapsed x ≤ elapsed z := by
  induction l with
  | nil => exact fun x hx => absurd hx (List.not_mem_nil x)
  | cons a t ih =>
    intro x hx z hz
    cases t with
    | nil =>
      simp only [List.getLast?_singleton, Option.some.injEq] at hz
      simp only [List.mem_singleton] at hx
      rw [hx, ← hz]
    | cons b t2 =>
      rw [List.getLast?_cons_cons] at hz
      have hzmem : z ∈ b :: t2 := getLast?_eq_some_mem hz
      rcases List.mem_cons.mp hx with rfl | hx2
      · exact (List.pairwise_cons.mp hp).1 z hzmem
      · exact ih (List.pairwise_cons.mp hp).2 x hx2 z hz

theorem nonneg_processMatch (evs : List Event) (d : Dict)
    (hmono : List.Pairwise (fun a b => elapsed a ≤ elapsed b) (sortE evs))
    (h0 : ∀ e ∈ evs, (0 : ℤ) ≤ elapsed e) (hd : nonnegDict d) :
    nonnegDict (processMatch evs d) := by
  have hperm := List.perm_insertionSort leP evs
  have h0s : ∀ e ∈ sortE evs, (0 : ℤ) ≤ elapsed e :=
    fun e he => h0 e (hperm.mem_iff.mp he)
  have hend : (0 : ℤ) ≤ matchEnd evs := by
    unfold matchEnd
    rcases hlast : (sortE evs).getLast? with _ | z
    · exact le_refl 0
    · exact h0s z (getLast?_eq_some_mem hlast)
  have hub : ∀ e ∈ sortE evs, elapsed e ≤ matchEnd evs := by
    intro e he
    unfold matchEnd
    rcases hlast : (sortE evs).getLast? with _ | z
    · rw [List.getLast?_eq_none_iff.mp hlast] at he
      exact absurd he (List.not_mem_nil e)
    · exact le_elapsed_getLast _ hmono e he z hlast
  have hinv0 : InvC2 (matchEnd evs) (sortE evs)
      { onField := [], startTime := [], totals := d } := by
    refine ⟨hd, ?_⟩
    intro pr hpr
    exact absurd hpr (List.not_mem_nil pr)
  have hinv1 := InvC2_startAct_foldl
    ((sortE evs).filter (fun e => e.type == sStartingXI)) h0s hend _ hinv0
  have hinv2 := InvC2_mainStep_foldl (sortE evs) _ hmono
    (fun x hx => ⟨h0s x hx, hub x hx⟩) hend hinv1
  show nonnegDict
    (closeOut (matchEnd evs)
      ((sortE evs).foldl mainStep
        (startingPass (sortE evs) { onField := [], startTime := [], totals := d })))
  unfold closeOut
  exact nonneg_closeOutOn _ (fun pr hpr => (hinv2.2 pr hpr).2) hend _ hinv2.1

theorem mem_uniqStep {acc : List ℕ} {m x : ℕ} :
    x ∈ uniqStep acc m ↔ x ∈ acc ∨ x = m := by
  unfold uniqStep
  by_cases h : m ∈ acc
  · rw [if_pos h]
    constructor
    · exact Or.inl
    · rintro (hx | rfl)
      · exact hx
      · exact h
  · rw [if_neg h]
    simp

theorem mem_foldl_uniqStep (L : List ℕ) :
    ∀ (acc : List ℕ) (x : ℕ), x ∈ L.foldl uniqStep acc ↔ x ∈ acc ∨ x ∈ L := by
  induction L with
  | nil => simp
  | cons m t ih =>
    intro acc x
    show x ∈ t.foldl uniqStep (uniqStep acc m) ↔ _
    rw [ih, mem_uniqStep]
    simp only [List.mem_cons]
    tauto

theorem mem_uniqueIds_iff {L : List ℕ} {x : ℕ} : x ∈ uniqueIds L ↔ x ∈ L := by
  unfold uniqueIds
  rw [mem_foldl_uniqStep]
  simp

theorem elapsed_nonneg_of_period_pos {e : Event} (h : 1 ≤ e.period) :
    (0 : ℤ) ≤ elapsed e := by
  unfold elapsed
  have h1 : (1 : ℤ) ≤ (e.period : ℤ) := by exact_mod_cast h
  have h2 : (0 : ℤ) ≤ (e.minute : ℤ) := Int.ofNat_nonneg _
  have h3 : (0 : ℤ) ≤ (e.second : ℤ) := Int.ofNat_nonneg _
  nlinarith

/-- Claim C2 amended: all returned totals are non-negative provided every
event has period at least 1 (so all derived timestamps are non-negative)
and, within each match, the (period, minute, second)-sorted processing
order is non-decreasing in the derived elapsed_seconds.  Without the
second hypothesis the closing timestamp can undercut an open interval (see
the counterexample), and without the first a starter can be closed out at
a negative end timestamp. -/
theorem c2_amended_nonneg (l : List Event)
    (hper : ∀ e ∈ l, 1 ≤ e.period)
    (hmono : ∀ mid ∈ l.map (fun e => e.match_id),
      List.Pairwise (fun a b => elapsed a ≤ elapsed b)
        (sortE (l.filter (fun e => e.match_id == mid)))) :
    nonnegDict (getMinutesPlayed l) := by
  unfold getMinutesPlayed
  have hgen : ∀ I : List ℕ, (∀ mid ∈ I, mid ∈ l.map (fun e => e.match_id)) →
      ∀ d : Dict, nonnegDict d → nonnegDict (I.foldl (matchStep l) d) := by
    intro I
    induction I with
    | nil => exact fun _ d hd => hd
    | cons mid t ih =>
      intro hI d hd
      show nonnegDict (t.foldl (matchStep l) (matchStep l d mid))
      apply ih fun x hx => hI x (List.mem_cons_of_mem mid hx)
      apply nonneg_processMatch _ _ (hmono mid (hI mid (List.mem_cons_self mid t)))
        _ hd
      intro e he
      exact elapsed_nonneg_of_period_pos (hper e (List.mem_filter.mp he).1)
  exact hgen _ (fun mid hmid => mem_uniqueIds_iff.mp hmid) [] (by intro pr hpr; cases hpr)

/-- Witness for the amended claim C2: the scenario log c1log satisfies
both hypotheses and all its totals are non-negative. -/
theorem c2_amended_nonneg_witness : nonnegDict (getMinutesPlayed c1log) :=
  c2_amended_nonneg c1log (by decide) (by decide)

theorem applyC_combC (a b v : Option ℚ) :
    applyC (combC a b) v = applyC b (applyC a v) := by
  cases a <;> cases b <;> simp [applyC, combC, add_assoc]

theorem applyC_comm (a b : Option ℚ) (v : Option ℚ) :
    applyC a (applyC b v) = applyC b (applyC a v) := by
  cases a <;> cases b <;> simp [applyC, add_right_comm]

theorem isLocalF_id : IsLocalF (fun d => d) :=
  ⟨fun _ => none, fun _ _ => rfl⟩

theorem isLocalF_comp {f g : Dict → Dict} (hf : IsLocalF f) (hg : IsLocalF g) :
    IsLocalF (fun d => g (f d)) := by
  obtain ⟨δf, hδf⟩ := hf
  obtain ⟨δg, hδg⟩ := hg
  refine ⟨fun k => combC (δf k) (δg k), fun d k => ?_⟩
  rw [hδg, hδf, applyC_combC]

theorem isLocalF_addTo (p : String) (c : ℚ) : IsLocalF (addTo p c) := by
  refine ⟨fun k => if k = p then some c else none, fun d k => ?_⟩
  by_cases hk : k = p
  · subst hk
    rw [alookup_addTo_self]
    simp [applyC]
  · rw [alookup_addTo_ne _ _ hk]
    simp [applyC, hk]

theorem isLocalF_dsetdefault (p : String) : IsLocalF (dsetdefault p) := by
  refine ⟨fun k => if k = p then some 0 else none, fun d k => ?_⟩
  by_cases hk : k = p
  · subst hk
    rw [alookup_dsetdefault_self]
    simp [applyC]
  · rw [alookup_dsetdefault_ne _ hk]
    simp [applyC, hk]

theorem isLocalF_foldl {α : Type} (step : Dict → α → Dict)
    (h : ∀ a, IsLocalF (fun d => step d a)) (L : List α) :
    IsLocalF (fun d => L.foldl step d) := by
  induction L with
  | nil => exact isLocalF_id
  | cons a t ih => exact isLocalF_comp (h a) ih

theorem isLocalF_congr {f : Dict → Dict} (hf : IsLocalF f) {d₁ d₂ : Dict}
    (h : dEquiv d₁ d₂) : dEquiv (f d₁) (f d₂) := by
  obtain ⟨δ, hδ⟩ := hf
  intro k
  rw [hδ, hδ, h k]

theorem foldl_perm_dEquiv {α : Type} (step : Dict → α → Dict)
    (h : ∀ a, IsLocalF (fun d => step d a)) {L₁ L₂ : List α} (hp : L₁.Perm L₂) :
    ∀ d, dEquiv (L₁.foldl step d) (L₂.foldl step d) := by
  induction hp with
  | nil => exact fun d k => rfl
  | cons x _ ih => exact fun d => ih (step d x)
  | swap x y l =>
    intro d
    have hs : dEquiv (step (step d y) x) (step (step d x) y) := by
      intro k
      obtain ⟨δx, hx⟩ := h x
      obtain ⟨δy, hy⟩ := h y
      rw [hx, hy, hy, hx, applyC_comm]
    exact isLocalF_congr (isLocalF_foldl step h l) hs
  | trans _ _ ih1 ih2 => exact fun d k => (ih1 d k).trans (ih2 d k)

theorem pairwise_and {α : Type} {R S : α → α → Prop} {l : List α}
    (hR : l.Pairwise R) (hS : l.Pairwise S) :
    l.Pairwise (fun a b => R a b ∧ S a b) := by
  induction l with
  | nil => exact List.Pairwise.nil
  | cons a t ih =>
    obtain ⟨hRa, hRt⟩ := List.pairwise_cons.mp hR
    obtain ⟨hSa, hSt⟩ := List.pairwise_cons.mp hS
    exact List.pairwise_cons.mpr ⟨fun b hb => ⟨hRa b hb, hSa b hb⟩, ih hRt hSt⟩

theorem sortE_eq_of_perm {l₁ l₂ : List Event} (h : l₁.Perm l₂)
    (hnd : (l₁.map tkey).Nodup) : sortE l₁ = sortE l₂ := by
  have hp : (sortE l₁).Perm (sortE l₂) :=
    (List.perm_insertionSort leP l₁).trans
      (h.trans (List.perm_insertionSort leP l₂).symm)
  have hnd1 : ((sortE l₁).map tkey).Nodup :=
    (((List.perm_insertionSort leP l₁).map tkey).nodup_iff).mpr hnd
  have hnd2 : ((sortE l₂).map tkey).Nodup :=
    ((hp.symm.map tkey).nodup_iff).mpr hnd1
  have hpw1 : (sortE l₁).Pairwise (fun a b => tkey a ≠ tkey b) :=
    List.pairwise_map.mp hnd1
  have hpw2 : (sortE l₂).Pairwise (fun a b => tkey a ≠ tkey b) :=
    List.pairwise_map.mp hnd2
  have hs1 : List.Sorted ltP (sortE l₁) :=
    pairwise_and (List.sorted_insertionSort leP l₁) hpw1
  have hs2 : List.Sorted ltP (sortE l₂) :=
    pairwise_and (List.sorted_insertionSort leP l₂) hpw2
  exact List.eq_of_perm_of_sorted hp hs1 hs2

theorem processMatch_congr {evs₁ evs₂ : List Event} (h : sortE evs₁ = sortE evs₂) :
    processMatch evs₁ = processMatch evs₂ := by
  funext d
  unfold processMatch matchEnd
  rw [h]

theorem nodup_foldl_uniqStep (L : List ℕ) :
    ∀ acc : List ℕ, acc.Nodup → (L.foldl uniqStep acc).Nodup := by
  induction L with
  | nil => exact fun acc h => h
  | cons m t ih =>
    intro acc h
    apply ih
    unfold uniqStep
    by_cases hm : m ∈ acc
    · rw [if_pos hm]
      exact h
    · rw [if_neg hm]
      refine List.Nodup.append h (by simp) ?_
      intro a ha hab
      simp only [List.mem_singleton] at hab
      subst hab
      exact hm ha

theorem nodup_uniqueIds (L : List ℕ) : (uniqueIds L).Nodup :=
  nodup_foldl_uniqStep L [] (by simp)

theorem passLocal_id : PassLocal (fun st => st) (fun fs => fs) :=
  fun _ _ => ⟨fun _ => rfl, ⟨fun _ => none, fun _ _ => rfl⟩⟩

theorem passLocal_comp {F₁ F₂ : MState → MState} {G₁ G₂ : FS → FS}
    (h1 : PassLocal F₁ G₁) (h2 : PassLocal F₂ G₂) :
    PassLocal (fun st => F₂ (F₁ st)) (fun fs => G₂ (G₁ fs)) := by
  intro of stt
  obtain ⟨hproj1, δ1, hδ1⟩ := h1 of stt
  obtain ⟨hproj2, δ2, hδ2⟩ := h2 (G₁ (of, stt)).1 (G₁ (of, stt)).2
  have hstate : ∀ d : Dict,
      F₁ { onField := of, startTime := stt, totals := d } =
        { onField := (G₁ (of, stt)).1, startTime := (G₁ (of, stt)).2,
          totals := (F₁ { onField := of, startTime := stt, totals := d }).totals } := by
    intro d
    have hof : (F₁ { onField := of, startTime := stt, totals := d }).onField =
        (G₁ (of, stt)).1 := congrArg Prod.fst (hproj1 d)
    have hst : (F₁ { onField := of, startTime := stt, totals := d }).startTime =
        (G₁ (of, stt)).2 := congrArg Prod.snd (hproj1 d)
    calc F₁ { onField := of, startTime := stt, totals := d } =
        { onField := (F₁ { onField := of, startTime := stt, totals := d }).onField,
          startTime := (F₁ { onField := of, startTime := stt, totals := d }).startTime,
          totals := (F₁ { onField := of, startTime := stt, totals := d }).totals } := rfl
      _ = _ := by rw [hof, hst]
  refine ⟨fun d => ?_, ⟨fun k => combC (δ1 k) (δ2 k), fun d k => ?_⟩⟩
  · show ((F₂ (F₁ _)).onField, (F₂ (F₁ _)).startTime) = G₂ (G₁ (of, stt))
    rw [hstate d]
    have := hproj2 (F₁ { onField := of, startTime := stt, totals := d }).totals
    rw [this]
  · show alookup k (F₂ (F₁ _)).totals = _
    rw [hstate d, hδ2, hδ1, applyC_combC]

theorem passLocal_foldl {α : Type} (step : MState → α → MState)
    (gstep : FS → α → FS)
    (h : ∀ a, PassLocal (fun st => step st a) (fun fs => gstep fs a)) :
    ∀ L : List α,
      PassLocal (fun st => L.foldl step st) (fun fs => L.foldl gstep fs) := by
  intro L
  induction L with
  | nil => exact passLocal_id
  | cons a t ih => exact passLocal_comp (h a) ih

theorem passLocal_addStarter (p : String) :
    PassLocal (addStarter p) (gAddStarter p) := by
  intro of stt
  refine ⟨fun d => rfl, ⟨fun k => if k = p then some 0 else none, fun d k => ?_⟩⟩
  show alookup k (dsetdefault p d) = _
  by_cases hk : k = p
  · subst hk
    rw [alookup_dsetdefault_self]
    simp [applyC]
  · rw [alookup_dsetdefault_ne _ hk]
    simp [applyC, hk]

theorem passLocal_startEntry (entry : Option String) :
    PassLocal (fun st => startEntry st entry) (fun fs => gStartEntry fs entry) := by
  cases entry with
  | none => exact passLocal_id
  | some q => exact passLocal_addStarter q

theorem passLocal_startAct (e : Event) :
    PassLocal (fun st => startAct st e) (fun fs => gStartAct fs e) := by
  rcases htac : e.tactics with _ | lu
  · rcases hp : e.player with _ | q
    · have hF : ∀ st : MState, startAct st e = st := by
        intro st
        unfold startAct
        rw [htac, hp]
      have hG : ∀ fs : FS, gStartAct fs e = fs := by
        intro fs
        unfold gStartAct
        rw [htac, hp]
      simp only [hF, hG]
      exact passLocal_id
    · have hF : ∀ st : MState, startAct st e = addStarter q st := by
        intro st
        unfold startAct
        rw [htac, hp]
      have hG : ∀ fs : FS, gStartAct fs e = gAddStarter q fs := by
        intro fs
        unfold gStartAct
        rw [htac, hp]
      simp only [hF, hG]
      exact passLocal_addStarter q
  · have hF : ∀ st : MState, startAct st e = lu.foldl startEntry st := by
      intro st
      unfold startAct
      rw [htac]
    have hG : ∀ fs : FS, gStartAct fs e = lu.foldl gStartEntry fs := by
      intro fs
      unfold gStartAct
      rw [htac]
    simp only [hF, hG]
    exact passLocal_foldl startEntry gStartEntry passLocal_startEntry lu

theorem passLocal_subOut (e : Event) :
    PassLocal (fun st => subOut st e) (fun fs => gSubOut fs e) := by
  rcases hp : e.player with _ | pOff
  · have hF : ∀ st : MState, subOut st e = st := by
      intro st
      unfold subOut
      rw [hp]
    have hG : ∀ fs : FS, gSubOut fs e = fs := by
      intro fs
      unfold gSubOut
      rw [hp]
    simp only [hF, hG]
    exact passLocal_id
  · intro of stt
    by_cases hmem : pOff ∈ of
    · have hF : ∀ d : Dict,
          subOut { onField := of, startTime := stt, totals := d } e =
            { onField := of.filter (fun q => q != pOff)
              startTime := aerase pOff stt
              totals := addTo pOff
                (((elapsed e - (alookup pOff stt).getD 0 : ℤ) : ℚ) / 60) d } := by
        intro d
        unfold subOut
        rw [hp]
        simp only [if_pos hmem]
      have hG : gSubOut (of, stt) e =
          (of.filter (fun q => q != pOff), aerase pOff stt) := by
        unfold gSubOut
        rw [hp]
        simp only [if_pos hmem]
      refine ⟨fun d => by simp only [hF, hG], ?_⟩
      obtain ⟨δ, hδ⟩ := isLocalF_addTo pOff
        (((elapsed e - (alookup pOff stt).getD 0 : ℤ) : ℚ) / 60)
      exact ⟨δ, fun d k => by simp only [hF]; exact hδ d k⟩
    · have hF : ∀ d : Dict,
          subOut { onField := of, startTime := stt, totals := d } e =
            { onField := of, startTime := stt, totals := d } := by
        intro d
        unfold subOut
        rw [hp]
        simp only [if_neg hmem]
      have hG : gSubOut (of, stt) e = (of, stt) := by
        unfold gSubOut
        rw [hp]
        simp only [if_neg hmem]
      exact ⟨fun d => by simp only [hF, hG], ⟨fun _ => none, fun d k => by simp only [hF, applyC]⟩⟩

theorem passLocal_subIn (e : Event) :
    PassLocal (fun st => subIn st e) (fun fs => gSubIn fs e) := by
  rcases hr : e.substitution with _ | pOn
  · have hF : ∀ st : MState, subIn st e = st := by
      intro st
      unfold subIn
      rw [hr]
    have hG : ∀ fs : FS, gSubIn fs e = fs := by
      intro fs
      unfold gSubIn
      rw [hr]
    simp only [hF, hG]
    exact passLocal_id
  · intro of stt
    by_cases hcond : pOn ≠ "" ∧ pOn ∉ of
    · have hF : ∀ d : Dict,
          subIn { onField := of, startTime := stt, totals := d } e =
            { onField := fadd pOn of
              startTime := aset pOn (elapsed e) stt
              totals := dsetdefault pOn d } := by
        intro d
        unfold subIn
        rw [hr]
        simp only [if_pos hcond]
      have hG : gSubIn (of, stt) e = (fadd pOn of, aset pOn (elapsed e) stt) := by
        unfold gSubIn
        rw [hr]
        simp only [if_pos hcond]
      refine ⟨fun d => by simp only [hF, hG], ?_⟩
      obtain ⟨δ, hδ⟩ := isLocalF_dsetdefault pOn
      exact ⟨δ, fun d k => by simp only [hF]; exact hδ d k⟩
    · have hF : ∀ d : Dict,
          subIn { onField := of, startTime := stt, totals := d } e =
            { onField := of, startTime := stt, totals := d } := by
        intro d
        unfold subIn
        rw [hr]
        simp only [if_neg hcond]
      have hG : gSubIn (of, stt) e = (of, stt) := by
        unfold gSubIn
        rw [hr]
        simp only [if_neg hcond]
      exact ⟨fun d => by simp only [hF, hG], ⟨fun _ => none, fun d k => by simp only [hF, applyC]⟩⟩

theorem passLocal_mainStep (e : Event) :
    PassLocal (fun st => mainStep st e) (fun fs => gMainStep fs e) := by
  by_cases htype : e.type = sSubstitution
  · have hF : ∀ st : MState, mainStep st e = subIn (subOut st e) e := by
      intro st
      unfold mainStep
      rw [if_pos htype]
    have hG : ∀ fs : FS, gMainStep fs e = gSubIn (gSubOut fs e) e := by
      intro fs
      unfold gMainStep
      rw [if_pos htype]
    simp only [hF, hG]
    exact passLocal_comp (passLocal_subOut e) (passLocal_subIn e)
  · have hF : ∀ st : MState, mainStep st e = st := by
      intro st
      unfold mainStep
      rw [if_neg htype]
    have hG : ∀ fs : FS, gMainStep fs e = fs := by
      intro fs
      unfold gMainStep
      rw [if_neg htype]
    simp only [hF, hG]
    exact passLocal_id

theorem passLocal_isLocalF_closeOut {F : MState → MState} {G : FS → FS}
    (h : PassLocal F G) (endSec : ℤ) :
    IsLocalF (fun d =>
      closeOut endSec (F { onField := [], startTime := [], totals := d })) := by
  obtain ⟨hproj, δ1, hδ1⟩ := h [] []
  obtain ⟨δ3, hδ3⟩ := isLocalF_foldl (closeStep (G ([], [])).2 endSec)
    (fun p => isLocalF_addTo p _) (G ([], [])).1
  refine ⟨fun k => combC (δ1 k) (δ3 k), fun d k => ?_⟩
  have hof : (F { onField := [], startTime := [], totals := d }).onField =
      (G ([], [])).1 := congrArg Prod.fst (hproj d)
  have hst : (F { onField := [], startTime := [], totals := d }).startTime =
      (G ([], [])).2 := congrArg Prod.snd (hproj d)
  have hδ3c : ∀ (t : Dict) (k : String),
      alookup k (closeOutOn (G ([], [])).1 (G ([], [])).2 endSec t) =
        applyC (δ3 k) (alookup k t) := hδ3
  show alookup k (closeOut endSec (F { onField := [], startTime := [], totals := d })) = _
  unfold closeOut
  rw [hof, hst, hδ3c, hδ1]
  exact (applyC_combC (δ1 k) (δ3 k) (alookup k d)).symm

theorem isLocalF_processMatch (evs : List Event) :
    IsLocalF (fun d => processMatch evs d) :=
  passLocal_isLocalF_closeOut
    (passLocal_comp
      (passLocal_foldl startAct gStartAct passLocal_startAct
        ((sortE evs).filter (fun e => e.type == sStartingXI)))
      (passLocal_foldl mainStep gMainStep passLocal_mainStep (sortE evs)))
    (matchEnd evs)

/-- Claim C4 amended: permuting the event log while preserving every field
yields the identical player-to-minutes mapping, provided that within each
match no two events share the same (period, minute, second) sort key
(otherwise the stable sort preserves the permuted tie order, see the
counterexample).  Dict insertion order may still differ, so equality is
stated at the mapping level. -/
theorem c4_amended_perm_invariant (l₁ l₂ : List Event) (hp : l₁.Perm l₂)
    (hnd : ∀ mid ∈ l₁.map (fun e => e.match_id),
      ((l₁.filter (fun e => e.match_id == mid)).map tkey).Nodup) :
    dEquiv (getMinutesPlayed l₁) (getMinutesPlayed l₂) := by
  have hsort : ∀ mid : ℕ,
      sortE (l₁.filter (fun e => e.match_id == mid)) =
        sortE (l₂.filter (fun e => e.match_id == mid)) := by
    intro mid
    by_cases hmem : mid ∈ l₁.map (fun e => e.match_id)
    · exact sortE_eq_of_perm (hp.filter _) (hnd mid hmem)
    · have h1 : l₁.filter (fun e => e.match_id == mid) = [] := by
        rw [List.filter_eq_nil_iff]
        intro a ha hba
        rw [beq_iff_eq] at hba
        exact hmem (List.mem_map.mpr ⟨a, ha, hba⟩)
      have h2 : l₂.filter (fun e => e.match_id == mid) = [] := by
        rw [List.filter_eq_nil_iff]
        intro a ha hba
        rw [beq_iff_eq] at hba
        exact hmem (List.mem_map.mpr ⟨a, hp.mem_iff.mpr ha, hba⟩)
      rw [h1, h2]
  have hstep : matchStep l₁ = matchStep l₂ := by
    funext d mid
    show processMatch (l₁.filter (fun e => e.match_id == mid)) d =
      processMatch (l₂.filter (fun e => e.match_id == mid)) d
    rw [processMatch_congr (hsort mid)]
  have hids : (uniqueIds (l₁.map (fun e => e.match_id))).Perm
      (uniqueIds (l₂.map (fun e => e.match_id))) := by
    rw [List.perm_ext_iff_of_nodup (nodup_uniqueIds _) (nodup_uniqueIds _)]
    intro a
    rw [mem_uniqueIds_iff, mem_uniqueIds_iff]
    exact (hp.map _).mem_iff
  intro k
  have e1 := foldl_perm_dEquiv (matchStep l₁)
    (fun mid => isLocalF_processMatch (l₁.filter (fun e => e.match_id == mid)))
    hids [] k
  calc alookup k (getMinutesPlayed l₁)
      = alookup k ((uniqueIds (l₂.map (fun e => e.match_id))).foldl (matchStep l₁) []) := e1
    _ = alookup k (getMinutesPlayed l₂) := by
        show alookup k ((uniqueIds (l₂.map (fun e => e.match_id))).foldl (matchStep l₁) []) =
          alookup k ((uniqueIds (l₂.map (fun e => e.match_id))).foldl (matchStep l₂) [])
        rw [hstep]

/-- Witness pair for the amended claim C4: w4log2 permutes w4log1, all
sort keys inside the single match are distinct, and the two runs agree as
mappings. -/
theorem c4_amended_perm_invariant_witness :
    dEquiv (getMinutesPlayed w4log1) (getMinutesPlayed w4log2) :=
  c4_amended_perm_invariant w4log1 w4log2
    (List.Perm.swap c4e1 c4s [c4end]) (by decide)

theorem foldl_dEquiv_congr {α : Type} (s₁ s₂ : Dict → α → Dict) (L : List α)
    (h : ∀ a, ∀ d₁ d₂, dEquiv d₁ d₂ → dEquiv (s₁ d₁ a) (s₂ d₂ a)) :
    ∀ d₁ d₂, dEquiv d₁ d₂ → dEquiv (L.foldl s₁ d₁) (L.foldl s₂ d₂) := by
  induction L with
  | nil => exact fun d₁ d₂ hd => hd
  | cons a t ih => exact fun d₁ d₂ hd => ih _ _ (h a d₁ d₂ hd)

theorem processMatchOrd_dEquiv (ord : MState → List String)
    (hord : ∀ st : MState, (ord st).Perm st.onField) (evs : List Event)
    {d₁ d₂ : Dict} (h : dEquiv d₁ d₂) :
    dEquiv (processMatchOrd ord evs d₁) (processMatch evs d₂) := by
  have hA : dEquiv (processMatchOrd ord evs d₁) (processMatch evs d₁) := by
    intro k
    show alookup k
        (closeOutOn
          (ord ((sortE evs).foldl mainStep
            (startingPass (sortE evs) { onField := [], startTime := [], totals := d₁ })))
          ((sortE evs).foldl mainStep
            (startingPass (sortE evs) { onField := [], startTime := [], totals := d₁ })).startTime
          (matchEnd evs)
          ((sortE evs).foldl mainStep
            (startingPass (sortE evs) { onField := [], startTime := [], totals := d₁ })).totals) =
      alookup k
        (closeOutOn
          ((sortE evs).foldl mainStep
            (startingPass (sortE evs) { onField := [], startTime := [], totals := d₁ })).onField
          ((sortE evs).foldl mainStep
            (startingPass (sortE evs) { onField := [], startTime := [], totals := d₁ })).startTime
          (matchEnd evs)
          ((sortE evs).foldl mainStep
            (startingPass (sortE evs) { onField := [], startTime := [], totals := d₁ })).totals)
    exact foldl_perm_dEquiv _ (fun p => isLocalF_addTo p _)
      (hord ((sortE evs).foldl mainStep
        (startingPass (sortE evs) { onField := [], startTime := [], totals := d₁ })))
      _ k
  have hB : dEquiv (processMatch evs d₁) (processMatch evs d₂) :=
    isLocalF_congr (isLocalF_processMatch evs) h
  exact fun k => (hA k).trans (hB k)

/-- Claim C8: get_minutes_played is deterministic and pure.  The embedding
is a pure function of its input, so equal inputs give equal outputs and no
state survives a call; the one step of the python code whose iteration
order is not specified by the language - the closing loop over the
players_on_field hash set - cannot change the returned mapping: for any
enumeration ord of the on-field set, the run agrees with the reference run
at every key. -/
theorem c8_deterministic_pure (ord : MState → List String) (l : List Event)
    (hord : ∀ st : MState, (ord st).Perm st.onField) :
    dEquiv (gmpOrd ord l) (getMinutesPlayed l) := by
  show dEquiv ((uniqueIds (l.map (fun e => e.match_id))).foldl (matchStepOrd ord l) [])
    ((uniqueIds (l.map (fun e => e.match_id))).foldl (matchStep l) [])
  exact foldl_dEquiv_congr (matchStepOrd ord l) (matchStep l) _
    (fun mid d₁ d₂ hd => processMatchOrd_dEquiv ord hord _ hd) [] [] (fun k => rfl)

/-- Witness for claim C8: enumerating the closing loop in reversed order
on the scenario log yields the same mapping as the reference run. -/
theorem c8_deterministic_pure_witness :
    dEquiv (gmpOrd revOrd c1log) (getMinutesPlayed c1log) :=
  c8_deterministic_pure revOrd c1log (fun st => List.reverse_perm st.onField)
